import Mathlib

/-!
Shallow embedding of `dbms/src/Storages/MergeTree/MergedBlockOutputStream.cpp`:
the MergeTree part writer classes `IMergedBlockOutputStream`,
`MergedBlockOutputStream` and `MergedColumnOnlyOutputStream`.

Machine loops are embedded as fuel-based structural recursions; every loop in
the source advances its counter by at least one per iteration (when the
granularity is positive), so a fuel equal to the loop bound is always
sufficient, which the lemmas below establish where needed.
-/

/-- Merging mode of the owning `MergeTreeData` storage.  The writer only
distinguishes `Unsorted` from everything else
(`storage.merging_params.mode != MergeTreeData::MergingParams::Unsorted`). -/
inductive MergingMode
  | ordinary
  | unsorted
deriving DecidableEq

/-- Error codes raised by the writer (`ErrorCodes::BAD_ARGUMENTS` for a
duplicate primary-key column, `ErrorCodes::NOT_IMPLEMENTED` for
`writeSuffix`). -/
inductive ErrorCode
  | BAD_ARGUMENTS
  | NOT_IMPLEMENTED
deriving DecidableEq

/-- The writer-relevant shape of a column type: `DataTypeNullable` and
`DataTypeArray` are matched explicitly in `addStream` / `writeData`
(`type.isNullable()`, `typeid_cast<const DataTypeArray *>`); every other
type falls into the final `else` branch and is treated as one value
stream. -/
inductive CType
  | primitive
  | nullable (inner : CType)
  | array (inner : CType)
deriving DecidableEq

/-- A dotted logical column name, kept as its list of components
(the source string `"t.x"` is `["t", "x"]`). -/
abbrev ColName := List String

/-- Modelled from the spec: `DataTypeNested::extractNestedTableName` is not
under `src/`; per the spec, `nested_root` strips the final dotted suffix
(`a.b.c` has nested root `a.b`), and a name without a dot is its own
root. -/
def extractNestedTableName (name : ColName) : ColName :=
  if name.length ≤ 1 then name else name.dropLast

/-- Key of a physical stream in the writer's stream tables.
`column_streams` is keyed by the plain column name (`value`) or by
`DataTypeNested::extractNestedTableName(name) + ARRAY_SIZES_COLUMN_NAME_SUFFIX
+ toString(level)` (`sizes`); `null_streams` is keyed by the plain name
(`nullMap`). -/
inductive StreamKey
  | value (name : ColName)
  | sizes (root : ColName) (level : Nat)
  | nullMap (name : ColName)
deriving DecidableEq

/-- Whether a key lives in the `null_streams` table rather than in
`column_streams`. -/
def StreamKey.isNull : StreamKey → Bool
  | .nullMap _ => true
  | _ => false

/-- `IMergedBlockOutputStream::addStream`: the sequence of `ColumnStream`
constructions performed for one logical column, in construction order.
A `Nullable` type first constructs the null-map stream (`addNullStream`)
and recurses on the nested type at the same level; an `Array` type
constructs the offset-sizes stream for the current level and recurses on
the nested type at `level + 1`; anything else constructs the value
stream.  (`path`, `estimated_size` and `filename` only affect file paths
and buffer sizes, never the keys, so they are omitted.) -/
def addStream (name : ColName) : CType → Nat → List StreamKey
  | CType.nullable inner, level =>
      StreamKey.nullMap name :: addStream name inner level
  | CType.array inner, level =>
      StreamKey.sizes (extractNestedTableName name) level :: addStream name inner (level + 1)
  | CType.primitive, _ => [StreamKey.value name]

/-- All `ColumnStream` constructions performed by a constructor that calls
`addStream` once per column of `columns_list`, in order. -/
def streamCreations (columns_list : List (ColName × CType)) : List StreamKey :=
  columns_list.foldr (fun c acc => addStream c.1 c.2 0 ++ acc) []

/-- The constructions that target the `column_streams` table. -/
def columnStreamCreations (columns_list : List (ColName × CType)) : List StreamKey :=
  (streamCreations columns_list).filter (fun k => !k.isNull)

/-- The constructions that target the `null_streams` table. -/
def nullStreamCreations (columns_list : List (ColName × CType)) : List StreamKey :=
  (streamCreations columns_list).filter StreamKey.isNull

/-- Key-set effect of `column_streams[key] = std::make_unique<ColumnStream>(...)`
on a `std::map`: the key is added when absent, and an already present key
keeps its (single) slot — the mapped stream is overwritten. -/
def insertKey (table : List StreamKey) (k : StreamKey) : List StreamKey :=
  if k ∈ table then table else table ++ [k]

/-- The key set of a stream table after a sequence of constructions. -/
def buildTable (creations : List StreamKey) : List StreamKey :=
  creations.foldl insertKey []

/-- State of a `MergedBlockOutputStream` (the full part assembler): the
construction parameters, the mark / index bookkeeping of `writeImpl`,
and the key sets of the two stream tables.  `index_rows` records, in
emission order, the block-local row numbers whose primary-key tuples were
appended to `index_columns` / `primary.idx`; `index_opened` records
whether `init()` opened `primary.idx`. -/
structure FullState where
  index_granularity : Nat
  min_compress_block_size : Nat
  max_compress_block_size : Nat
  mode : MergingMode
  marks_count : Nat
  index_offset : Nat
  index_rows : List Nat
  index_opened : Bool
  dir_created : Bool
  column_streams : List StreamKey
  null_streams : List StreamKey
deriving DecidableEq

/-- The constructor `MergedBlockOutputStream::MergedBlockOutputStream`
together with `init()`: it stores the settings, creates the part
directory, opens `primary.idx` iff the merging mode is not `Unsorted`,
and calls `addStream` for every column of `columns_list`.  No field is
validated — there is no check on `index_granularity` or on the
compress-block thresholds anywhere on this path. -/
def mkMergedBlockOutputStream (index_granularity min_compress_block_size
    max_compress_block_size : Nat) (mode : MergingMode)
    (columns_list : List (ColName × CType)) : FullState :=
  { index_granularity := index_granularity
    min_compress_block_size := min_compress_block_size
    max_compress_block_size := max_compress_block_size
    mode := mode
    marks_count := 0
    index_offset := 0
    index_rows := []
    index_opened := mode ≠ MergingMode.unsorted
    dir_created := true
    column_streams := buildTable (columnStreamCreations columns_list)
    null_streams := buildTable (nullStreamCreations columns_list) }

/-- The index loop of `MergedBlockOutputStream::writeImpl`:
`for (i = index_offset; i < rows; i += index_granularity)` — each
iteration appends the primary-key tuple of row `i` when the mode is not
`Unsorted`, and unconditionally increments `marks_count`.  Returns the
number of `++marks_count` executions and the emitted index rows.  Fuel
`rows` is sufficient when `0 < granularity`. -/
def indexLoopAux (g rows : Nat) (mode : MergingMode) : Nat → Nat → Nat × List Nat
  | 0, _ => (0, [])
  | fuel + 1, i =>
    if i < rows then
      let rest := indexLoopAux g rows mode fuel (i + g)
      (rest.1 + 1, if mode ≠ MergingMode.unsorted then i :: rest.2 else rest.2)
    else (0, [])

/-- The block-level effect of `MergedBlockOutputStream::writeImpl` on the
writer state: run the index loop, then
`written_for_last_mark = (index_granularity - index_offset + rows) % index_granularity;`
`index_offset = (index_granularity - written_for_last_mark) % index_granularity;`. -/
def writeImpl (s : FullState) (rows : Nat) : FullState :=
  let res := indexLoopAux s.index_granularity rows s.mode rows s.index_offset
  let written_for_last_mark :=
    (s.index_granularity - s.index_offset + rows) % s.index_granularity
  { s with
    marks_count := s.marks_count + res.1
    index_rows := s.index_rows ++ res.2
    index_offset := (s.index_granularity - written_for_last_mark) % s.index_granularity }

/-- An entry of the `checksums` manifest assembled by
`writeSuffixAndGetChecksums`: the `primary.idx` entry, or the data /
marks entry contributed by `ColumnStream::addToChecksums` for one stream
(`.bin`+`.mrk` for column streams, `.null`+`.null_mrk` for null
streams). -/
inductive ManifestEntry
  | primaryIdx
  | dataFile (k : StreamKey)
  | marksFile (k : StreamKey)
deriving DecidableEq

/-- Result of `MergedBlockOutputStream::writeSuffixAndGetChecksums`:
the returned manifest, whether `Poco::File(part_path).remove(true)` ran,
and whether `columns.txt` / `checksums.txt` were written. -/
structure CommitOutcome where
  checksums : List ManifestEntry
  dir_removed : Bool
  wrote_columns_txt : Bool
  wrote_checksums_txt : Bool
deriving DecidableEq

/-- The two manifest entries contributed by one stream's
`addToChecksums`. -/
def streamEntries (streams : List StreamKey) : List ManifestEntry :=
  streams.foldr (fun k acc => ManifestEntry.dataFile k :: ManifestEntry.marksFile k :: acc) []

/-- `MergedBlockOutputStream::writeSuffixAndGetChecksums`: finalize
`primary.idx` (iff the mode is not `Unsorted`) and every stream, adding
their manifest entries; then, if `marks_count == 0`, remove the part
directory recursively, clear the manifest and return it; otherwise write
`columns.txt` and `checksums.txt` and return the manifest. -/
def writeSuffixAndGetChecksums (s : FullState) : CommitOutcome :=
  let idxEntries :=
    if s.mode ≠ MergingMode.unsorted then [ManifestEntry.primaryIdx] else []
  let files := idxEntries ++ streamEntries s.column_streams ++ streamEntries s.null_streams
  if s.marks_count = 0 then
    { checksums := [], dir_removed := true
      wrote_columns_txt := false, wrote_checksums_txt := false }
  else
    { checksums := files, dir_removed := false
      wrote_columns_txt := true, wrote_checksums_txt := true }

/-- `MergedBlockOutputStream::writeSuffix`: its whole body is
`throw Exception(..., ErrorCodes::NOT_IMPLEMENTED);`, so it raises
`NOT_IMPLEMENTED` and the state is returned untouched. -/
def FullState.writeSuffix (s : FullState) : FullState × Except ErrorCode Unit :=
  (s, Except.error ErrorCode.NOT_IMPLEMENTED)

/-- State of a `MergedColumnOnlyOutputStream` (the append-only column
assembler). -/
structure AppendState where
  index_granularity : Nat
  index_offset : Nat
  initialized : Bool
  column_streams : List StreamKey
  null_streams : List StreamKey
deriving DecidableEq

/-- The constructor `MergedColumnOnlyOutputStream::MergedColumnOnlyOutputStream`:
stores settings only; streams are created lazily by `write`. -/
def mkMergedColumnOnlyOutputStream (index_granularity : Nat) : AppendState :=
  { index_granularity := index_granularity
    index_offset := 0
    initialized := false
    column_streams := []
    null_streams := [] }

/-- `MergedColumnOnlyOutputStream::write`: on the first call, clear both
stream tables and call `addStream` for every column of the block; then
write every column's data, and update `index_offset` with exactly the
same two lines as `writeImpl`. -/
def writeAppend (s : AppendState) (block : List (ColName × CType)) (rows : Nat) : AppendState :=
  let s1 :=
    if s.initialized then s
    else
      { s with
        column_streams := buildTable (columnStreamCreations block)
        null_streams := buildTable (nullStreamCreations block)
        initialized := true }
  let written_for_last_mark :=
    (s1.index_granularity - s1.index_offset + rows) % s1.index_granularity
  { s1 with
    index_offset := (s1.index_granularity - written_for_last_mark) % s1.index_granularity }

/-- `MergedColumnOnlyOutputStream::writeSuffix`: its whole body is a
`NOT_IMPLEMENTED` throw; the state is returned untouched. -/
def AppendState.writeSuffix (s : AppendState) : AppendState × Except ErrorCode Unit :=
  (s, Except.error ErrorCode.NOT_IMPLEMENTED)

/-- Written after the spec's words (I5): the carried `index_offset` after a
block of `rows` rows equals
`(granularity − ((granularity − index_offset + rows) mod granularity)) mod granularity`. -/
def specIndexOffsetStep (g index_offset rows : Nat) : Nat :=
  (g - (g - index_offset + rows) % g) % g

/-- Written after the spec's words: the number of marks of one block, i.e.
the number of row indices `index_offset, index_offset + g, index_offset + 2g, …`
strictly below `rows` (`⌈(rows − index_offset) / g⌉` when
`index_offset < rows`, else `0`). -/
def specMarksInBlock (g index_offset rows : Nat) : Nat :=
  if index_offset < rows then (rows - index_offset - 1) / g + 1 else 0

/-- Written after the spec's words (P1): fold the recurrence
`index_offset_{i+1} = (g − (g − index_offset_i + r_i) mod g) mod g` with
`index_offset_1 = 0` over the block sizes, summing the per-block mark
counts.  Returns `(final index_offset, total marks)`. -/
def specRecurrence (g : Nat) (blocks : List Nat) : Nat × Nat :=
  blocks.foldl
    (fun p r => (specIndexOffsetStep g p.1 r, p.2 + specMarksInBlock g p.1 r)) (0, 0)

/-- One iteration of a per-column granularity loop of
`IMergedBlockOutputStream::writeData`: the row cursor (`prev_mark`) at
entry, whether the iteration wrote a mark, and how many rows it
serialized. -/
structure ColIter where
  start : Nat
  emitsMark : Bool
  serialized : Nat
deriving DecidableEq

/-- The generic per-column granularity loop of `writeData`
(`while (prev_mark < size)`): the first iteration with
`prev_mark == 0 && index_offset != 0` takes `limit = index_offset` and
writes no mark; every other iteration takes `limit = index_granularity`
and writes one mark.  `type.serializeBinary(column, stream, prev_mark, limit)`
serializes rows `[prev_mark, min (prev_mark + limit) size)`, i.e.
`min limit (size - prev_mark)` rows.  Fuel `size` is sufficient when
`0 < g`. -/
def writeDataLoopAux (g index_offset size : Nat) : Nat → Nat → List ColIter
  | 0, _ => []
  | fuel + 1, prev_mark =>
    if prev_mark < size then
      let limit := if prev_mark = 0 ∧ index_offset ≠ 0 then index_offset else g
      { start := prev_mark
        emitsMark := decide (prev_mark ≠ 0 ∨ index_offset = 0)
        serialized := min limit (size - prev_mark) } ::
        writeDataLoopAux g index_offset size fuel (prev_mark + limit)
    else []

/-- The iterations performed by one `writeData` column loop over a block of
`size` rows. -/
def writeDataIters (g index_offset size : Nat) : List ColIter :=
  writeDataLoopAux g index_offset size size 0

/-- A mark written to a `.mrk` stream by a `writeData` loop, together with
the frame bookkeeping around it: the uncompressed bytes buffered in the
open compression frame just before the mark was handled
(`compressed.offset()`), whether `compressed.next()` ran at the mark, and
the recorded pair `(plain_hashing.count(), compressed.offset())`. -/
structure MarkEvent where
  pre_frame : Nat
  flushed : Bool
  raw_offset : Nat
  frame_offset : Nat
deriving DecidableEq

/-- The per-column granularity loop of `writeData` with the `ColumnStream`
state made explicit as the pair `(plain_hashing.count(), compressed.offset())`.
At every mark, `if (compressed.offset() >= min_compress_block_size) compressed.next();`
then the pair `(plain_hashing.count(), compressed.offset())` is written to
the marks stream; after serializing, `compressed.nextIfAtEnd()` flushes
iff the frame buffer is exactly full.  Serialization and frame flushing
move bytes through an opaque compressor, so they are parameters: `serEff
pm cnt` transforms the state when rows `[pm, pm + cnt)` are serialized,
and `flushEff st` is the raw-file byte count after flushing a frame
(whose buffer then holds 0 bytes).  Fuel `size` is sufficient when
`0 < g`. -/
def writeDataStreamAux (g index_offset size minB maxB : Nat)
    (serEff : Nat → Nat → Nat × Nat → Nat × Nat) (flushEff : Nat × Nat → Nat) :
    Nat → Nat → Nat × Nat → List MarkEvent
  | 0, _, _ => []
  | fuel + 1, prev_mark, st =>
    if prev_mark < size then
      if prev_mark = 0 ∧ index_offset ≠ 0 then
        let st1 := serEff prev_mark (min index_offset (size - prev_mark)) st
        let st2 := if st1.2 = maxB then (flushEff st1, 0) else st1
        writeDataStreamAux g index_offset size minB maxB serEff flushEff fuel
          (prev_mark + index_offset) st2
      else
        let stF := if minB ≤ st.2 then (flushEff st, 0) else st
        let ev : MarkEvent :=
          { pre_frame := st.2, flushed := decide (minB ≤ st.2)
            raw_offset := stF.1, frame_offset := stF.2 }
        let st1 := serEff prev_mark (min g (size - prev_mark)) stF
        let st2 := if st1.2 = maxB then (flushEff st1, 0) else st1
        ev :: writeDataStreamAux g index_offset size minB maxB serEff flushEff fuel
          (prev_mark + g) st2
    else []

/-- The mark events of one `writeData` column loop over a block of `size`
rows, starting from a fresh stream. -/
def writeDataStream (g index_offset size minB maxB : Nat)
    (serEff : Nat → Nat → Nat × Nat → Nat × Nat) (flushEff : Nat × Nat → Nat) :
    List MarkEvent :=
  writeDataStreamAux g index_offset size minB maxB serEff flushEff size 0 (0, 0)

/-- The null-map granularity loop of `writeData` (the `type.isNullable()`
branch), counting the uncompressed bytes sent to the `.null` stream.
Modelled from the spec for the serializer: `IDataType::serializeBinary`'s
column overload is not under `src/`; called without the `offset` / `limit`
arguments — as the source does here, unlike the two sibling loops — it
serializes the whole column, i.e. all `size` one-byte mask values, once
per loop iteration. -/
def nullMapLoopAux (g index_offset size : Nat) : Nat → Nat → Nat
  | 0, _ => 0
  | fuel + 1, prev_mark =>
    if prev_mark < size then
      let limit := if prev_mark = 0 ∧ index_offset ≠ 0 then index_offset else g
      size + nullMapLoopAux g index_offset size fuel (prev_mark + limit)
    else 0

/-- Total uncompressed bytes the null-map loop sends to the `.null` stream
for a block of `size` rows. -/
def nullMapBytesWritten (g index_offset size : Nat) : Nat :=
  nullMapLoopAux g index_offset size size 0

/-- Written after the spec's words: the same loop with `write_range`
semantics — each iteration serializes only rows
`[prev_mark, prev_mark + limit)` of the null mask, clamped to the block. -/
def nullMapLoopSpecAux (g index_offset size : Nat) : Nat → Nat → Nat
  | 0, _ => 0
  | fuel + 1, prev_mark =>
    if prev_mark < size then
      let limit := if prev_mark = 0 ∧ index_offset ≠ 0 then index_offset else g
      min limit (size - prev_mark) + nullMapLoopSpecAux g index_offset size fuel (prev_mark + limit)
    else 0

/-- Total bytes under the spec's `write_range` reading of the null-map
loop. -/
def nullMapBytesSpec (g index_offset size : Nat) : Nat :=
  nullMapLoopSpecAux g index_offset size size 0

/-- The offset-sizes part of `writeData` for one column: a `Nullable` type
recurses on the nested type at the same level; an `Array` type serializes
the sizes stream of the current level iff its key is not yet in
`offset_columns` (inserting it); other types write no sizes.  Returns the
sizes-stream keys serialized and the updated `offset_columns` set.  (The
array branch of `writeData` does not recurse: the value stream is written
by the generic loop that follows.) -/
def writeDataSizeEvents (name : ColName) : CType → List StreamKey → Nat →
    List StreamKey × List StreamKey
  | CType.nullable inner, offset_columns, level =>
      writeDataSizeEvents name inner offset_columns level
  | CType.array _, offset_columns, level =>
      let k := StreamKey.sizes (extractNestedTableName name) level
      if k ∈ offset_columns then ([], offset_columns)
      else ([k], k :: offset_columns)
  | CType.primitive, offset_columns, _ => ([], offset_columns)

/-- One column's contribution while writing a block: append its
sizes-stream serializations to the block's event list and thread the
`offset_columns` set. -/
def sizeFoldStep (p : List StreamKey × List StreamKey) (c : ColName × CType) :
    List StreamKey × List StreamKey :=
  let r := writeDataSizeEvents c.1 c.2 p.2 0
  (p.1 ++ r.1, r.2)

/-- The sizes-stream serializations performed while writing one block:
`writeImpl` starts from an empty `offset_columns` set and writes every
column in order. -/
def blockSizeEvents (columns : List (ColName × CType)) : List StreamKey :=
  (columns.foldl sizeFoldStep ([], [])).1

/-- One entry of the storage's sort description: an explicit column name
(used when non-empty) or a block position. -/
structure SortColumnDescription where
  column_name : ColName
  column_number : Nat
deriving DecidableEq

/-- Resolution of one sort-description entry against a block
(`!descr.column_name.empty() ? descr.column_name : block.getByPosition(descr.column_number).name`). -/
def resolveSortName (block : List (ColName × CType)) (d : SortColumnDescription) : ColName :=
  if d.column_name = [] then (block.map Prod.fst).getD d.column_number []
  else d.column_name

/-- The sort-key resolution loop at the head of `writeImpl`: names are
inserted one by one into `primary_columns_name_to_position`; a failed
`emplace` (name already present) throws
`"Primary key contains duplicate columns"` with `BAD_ARGUMENTS`. -/
def checkSortKeyAux (block : List (ColName × CType)) :
    List SortColumnDescription → List ColName → Except ErrorCode (List ColName)
  | [], acc => Except.ok acc
  | d :: ds, acc =>
    let name := resolveSortName block d
    if name ∈ acc then Except.error ErrorCode.BAD_ARGUMENTS
    else checkSortKeyAux block ds (acc ++ [name])

/-- The observable order of `writeImpl` for one block: the sort-key
resolution loop runs first, and only afterwards is any column handed to
`writeData`.  Returns the streams written with column data, paired with
the raised error, if any; on an error nothing has been serialized. -/
def writeImplTrace (block : List (ColName × CType))
    (sort_description : List SortColumnDescription) :
    List StreamKey × Option ErrorCode :=
  match checkSortKeyAux block sort_description [] with
  | Except.error e => ([], some e)
  | Except.ok _ => (streamCreations block, none)

/-! ### Arithmetic of the index loop -/

/-- With positive granularity, the index loop of `writeImpl` increments
`marks_count` exactly `specMarksInBlock` times: one increment per row
index `i, i + g, i + 2g, … < rows`, which is `⌈(rows − i) / g⌉` of them.
Fuel at least `rows - i` is sufficient. -/
lemma indexLoopAux_count (g rows : Nat) (mode : MergingMode) (hg : 0 < g) :
    ∀ fuel i, rows ≤ i + fuel →
      (indexLoopAux g rows mode fuel i).1 = specMarksInBlock g i rows := by
  intro fuel
  induction fuel with
  | zero =>
    intro i hi
    have h : ¬ i < rows := by omega
    simp [indexLoopAux, specMarksInBlock, h]
  | succ fuel ih =>
    intro i hi
    by_cases h : i < rows
    · have hrec := ih (i + g) (by omega)
      simp only [indexLoopAux, if_pos h]
      rw [hrec]
      simp only [specMarksInBlock]
      by_cases h2 : i + g < rows
      · rw [if_pos h2, if_pos h]
        have hd : rows - i - 1 = (rows - (i + g) - 1) + g := by omega
        rw [hd, Nat.add_div_right _ hg]
      · rw [if_neg h2, if_pos h]
        have hlt : rows - i - 1 < g := by omega
        rw [Nat.div_eq_of_lt hlt]
    · simp [indexLoopAux, specMarksInBlock, h]

/-- In `Unsorted` mode the index loop emits no index rows. -/
lemma indexLoopAux_unsorted (g rows : Nat) :
    ∀ fuel i, (indexLoopAux g rows MergingMode.unsorted fuel i).2 = [] := by
  intro fuel
  induction fuel with
  | zero => intro i; simp [indexLoopAux]
  | succ fuel ih =>
    intro i
    by_cases h : i < rows
    · simp [indexLoopAux, h, ih]
    · simp [indexLoopAux, h]

/-- `writeImpl` leaves every configuration field of the state unchanged. -/
lemma writeImpl_fields (s : FullState) (r : Nat) :
    (writeImpl s r).index_granularity = s.index_granularity ∧
    (writeImpl s r).mode = s.mode ∧
    (writeImpl s r).index_opened = s.index_opened ∧
    (writeImpl s r).column_streams = s.column_streams ∧
    (writeImpl s r).null_streams = s.null_streams := by
  simp [writeImpl]

/-- A whole sequence of block writes leaves the configuration fields
unchanged. -/
lemma foldl_writeImpl_fields (blocks : List Nat) :
    ∀ s : FullState,
      (blocks.foldl writeImpl s).index_granularity = s.index_granularity ∧
      (blocks.foldl writeImpl s).mode = s.mode ∧
      (blocks.foldl writeImpl s).index_opened = s.index_opened ∧
      (blocks.foldl writeImpl s).column_streams = s.column_streams ∧
      (blocks.foldl writeImpl s).null_streams = s.null_streams := by
  induction blocks with
  | nil => intro s; exact ⟨rfl, rfl, rfl, rfl, rfl⟩
  | cons r bs ih =>
    intro s
    have h1 := writeImpl_fields s r
    have h2 := ih (writeImpl s r)
    simp only [List.foldl_cons]
    exact ⟨h2.1.trans h1.1, h2.2.1.trans h1.2.1, h2.2.2.1.trans h1.2.2.1,
      h2.2.2.2.1.trans h1.2.2.2.1, h2.2.2.2.2.trans h1.2.2.2.2⟩

/-- The state evolution of `writeImpl` over a sequence of blocks refines
the spec recurrence: `index_offset` follows the I5 formula and
`marks_count` accumulates the per-block mark counts. -/
lemma foldl_writeImpl_marks (g : Nat) (hg : 0 < g) (blocks : List Nat) :
    ∀ s : FullState, s.index_granularity = g →
      (blocks.foldl writeImpl s).index_offset =
        (blocks.foldl
          (fun p r => (specIndexOffsetStep g p.1 r, p.2 + specMarksInBlock g p.1 r))
          (s.index_offset, s.marks_count)).1 ∧
      (blocks.foldl writeImpl s).marks_count =
        (blocks.foldl
          (fun p r => (specIndexOffsetStep g p.1 r, p.2 + specMarksInBlock g p.1 r))
          (s.index_offset, s.marks_count)).2 := by
  induction blocks with
  | nil => intro s hsg; exact ⟨rfl, rfl⟩
  | cons r bs ih =>
    intro s hsg
    have hstep1 : (writeImpl s r).index_offset = specIndexOffsetStep g s.index_offset r := by
      simp [writeImpl, specIndexOffsetStep, hsg]
    have hstep2 : (writeImpl s r).marks_count =
        s.marks_count + specMarksInBlock g s.index_offset r := by
      have hc := indexLoopAux_count g r s.mode hg r s.index_offset (by omega)
      simp [writeImpl, hsg, hc]
    have hnext := ih (writeImpl s r) ((writeImpl_fields s r).1.trans hsg)
    simp only [List.foldl_cons]
    rw [hnext.1, hnext.2, hstep1, hstep2]
    exact ⟨rfl, rfl⟩

/-- The first component of the spec recurrence fold ignores the mark
totals. -/
lemma specRecurrence_fst (g : Nat) (blocks : List Nat) :
    ∀ p : Nat × Nat,
      (blocks.foldl
        (fun p r => (specIndexOffsetStep g p.1 r, p.2 + specMarksInBlock g p.1 r)) p).1
        = blocks.foldl (specIndexOffsetStep g) p.1 := by
  induction blocks with
  | nil => intro p; rfl
  | cons r bs ih => intro p; simp only [List.foldl_cons]; exact ih _

/-- `MergedColumnOnlyOutputStream::write` updates `index_offset` by the I5
formula and keeps the granularity. -/
lemma writeAppend_io (s : AppendState) (b : List (ColName × CType)) (r : Nat) :
    (writeAppend s b r).index_offset =
      specIndexOffsetStep s.index_granularity s.index_offset r ∧
    (writeAppend s b r).index_granularity = s.index_granularity := by
  by_cases h : s.initialized <;> simp [writeAppend, h, specIndexOffsetStep]

/-- The append-only assembler's `index_offset` follows the same fold of the
I5 formula. -/
lemma foldl_writeAppend_io (b : List (ColName × CType)) (blocks : List Nat) :
    ∀ s : AppendState,
      (blocks.foldl (fun s r => writeAppend s b r) s).index_offset =
        blocks.foldl (specIndexOffsetStep s.index_granularity) s.index_offset := by
  induction blocks with
  | nil => intro s; rfl
  | cons r bs ih =>
    intro s
    simp only [List.foldl_cons]
    rw [ih (writeAppend s b r), (writeAppend_io s b r).1, (writeAppend_io s b r).2]

/-! ### C1: index_offset recurrence and marks_count accumulation -/

/-- C1: for every sequence of blocks written from `index_offset = 0`, the
carried `index_offset` after each write equals
`(g − ((g − index_offset + rows) mod g)) mod g` folded over the blocks,
and `marks_count` equals the sum over blocks of the per-block mark counts
under that recurrence — for the full assembler (`write` /
`writeWithPermutation`, both of which call `writeImpl`) and, for the
`index_offset` part, the append-only assembler's `write` as well.
(Every prefix of a block sequence is itself a block sequence, so this
states the property after each write.) -/
theorem C1_index_offset_recurrence (g minB maxB : Nat) (mode : MergingMode)
    (cols ablock : List (ColName × CType)) (blocks : List Nat) (hg : 0 < g) :
    (blocks.foldl writeImpl (mkMergedBlockOutputStream g minB maxB mode cols)).index_offset
        = (specRecurrence g blocks).1 ∧
    (blocks.foldl writeImpl (mkMergedBlockOutputStream g minB maxB mode cols)).marks_count
        = (specRecurrence g blocks).2 ∧
    (blocks.foldl (fun s r => writeAppend s ablock r)
        (mkMergedColumnOnlyOutputStream g)).index_offset
        = (specRecurrence g blocks).1 := by
  have hfull := foldl_writeImpl_marks g hg blocks
    (mkMergedBlockOutputStream g minB maxB mode cols) rfl
  have happ := foldl_writeAppend_io ablock blocks (mkMergedColumnOnlyOutputStream g)
  refine ⟨?_, ?_, ?_⟩
  · simpa [specRecurrence, mkMergedBlockOutputStream] using hfull.1
  · simpa [specRecurrence, mkMergedBlockOutputStream] using hfull.2
  · rw [happ]
    simp only [specRecurrence, specRecurrence_fst g blocks (0, 0)]
    rfl

/-- Witness for C1 at `g = 3`, blocks `[5, 4]`: the recurrence gives
carries `0 ↦ 1 ↦ 0` and mark counts `2 + 1 = 3`. -/
theorem C1_index_offset_recurrence_witness :
    0 < 3 ∧
    ([5, 4].foldl writeImpl
        (mkMergedBlockOutputStream 3 1 2 MergingMode.ordinary [])).marks_count
      = (specRecurrence 3 [5, 4]).2 :=
  ⟨by decide,
    (C1_index_offset_recurrence 3 1 2 MergingMode.ordinary [] [] [5, 4] (by decide)).2.1⟩

/-! ### C2: mark placement of the per-column granularity loop -/

/-- Arithmetic progressions with step `g` starting at `a`, intersected with
`[0, size)`, are exactly the indices `i ≥ a` with `(i − a) % g = 0` and
`i < size`. -/
lemma mark_index_iff (a g size i : Nat) :
    (∃ k, i = a + g * k ∧ i < size) ↔ (a ≤ i ∧ i < size ∧ (i - a) % g = 0) := by
  constructor
  · rintro ⟨k, rfl, hlt⟩
    refine ⟨by omega, hlt, ?_⟩
    have h1 : a + g * k - a = g * k := by omega
    rw [h1, Nat.mul_mod_right]
  · rintro ⟨hle, hlt, hmod⟩
    obtain ⟨k, hk⟩ := Nat.dvd_of_mod_eq_zero hmod
    exact ⟨k, by omega, hlt⟩

/-- Once past the special first iteration (`prev_mark ≠ 0`, or
`index_offset = 0` from the start), every iteration of the `writeData`
loop emits a mark and serializes `min g (size - start)` rows. -/
lemma writeDataLoopAux_steady_all (g io size : Nat) (hg : 0 < g) :
    ∀ (fuel pm : Nat), (pm ≠ 0 ∨ io = 0) →
      ∀ it ∈ writeDataLoopAux g io size fuel pm,
        it.emitsMark = true ∧ it.serialized = min g (size - it.start) ∧ pm ≤ it.start := by
  intro fuel
  induction fuel with
  | zero => intro pm _ it hit; simp [writeDataLoopAux] at hit
  | succ fuel ih =>
    intro pm hsteady it hit
    by_cases h : pm < size
    · have hcond : ¬ (pm = 0 ∧ io ≠ 0) := by tauto
      simp only [writeDataLoopAux, if_pos h, if_neg hcond, List.mem_cons] at hit
      rcases hit with rfl | hit'
      · exact ⟨decide_eq_true hsteady, rfl, Nat.le_refl _⟩
      · have hrec := ih (pm + g) (Or.inl (by omega)) it hit'
        exact ⟨hrec.1, hrec.2.1, by omega⟩
    · simp [writeDataLoopAux, h] at hit

/-- In the steady phase the marked iteration starts are exactly the
arithmetic progression `pm, pm + g, pm + 2g, …` below `size`. -/
lemma writeDataLoopAux_steady_mem (g io size : Nat) (hg : 0 < g) :
    ∀ (fuel pm : Nat), size ≤ pm + fuel → (pm ≠ 0 ∨ io = 0) →
      ∀ i, (∃ it ∈ writeDataLoopAux g io size fuel pm,
              it.emitsMark = true ∧ it.start = i) ↔
        (∃ k, i = pm + g * k ∧ i < size) := by
  intro fuel
  induction fuel with
  | zero =>
    intro pm hfuel hsteady i
    constructor
    · rintro ⟨it, hit, _⟩; simp [writeDataLoopAux] at hit
    · rintro ⟨k, rfl, hlt⟩; exfalso; omega
  | succ fuel ih =>
    intro pm hfuel hsteady i
    by_cases h : pm < size
    · have hcond : ¬ (pm = 0 ∧ io ≠ 0) := by tauto
      have hrec := ih (pm + g) (by omega) (Or.inl (by omega)) i
      simp only [writeDataLoopAux, if_pos h, if_neg hcond]
      constructor
      · rintro ⟨it, hit, hmark, hstart⟩
        rcases List.mem_cons.1 hit with rfl | hit'
        · have hpm : pm = i := hstart
          exact ⟨0, by omega, by omega⟩
        · obtain ⟨k, hk, hlt⟩ := hrec.mp ⟨it, hit', hmark, hstart⟩
          refine ⟨k + 1, ?_, hlt⟩
          rw [Nat.mul_succ]
          omega
      · rintro ⟨k, rfl, hlt⟩
        cases k with
        | zero =>
          exact ⟨_, List.mem_cons_self _ _, decide_eq_true hsteady, by simp⟩
        | succ k =>
          have hk : pm + g * (k + 1) = pm + g + g * k := by
            rw [Nat.mul_succ]; omega
          obtain ⟨it, hit, hmark, hstart⟩ := hrec.mpr ⟨k, hk, hlt⟩
          exact ⟨it, List.mem_cons_of_mem _ hit, hmark, hstart⟩
    · constructor
      · rintro ⟨it, hit, _⟩; simp [writeDataLoopAux, h] at hit
      · rintro ⟨k, rfl, hlt⟩; exfalso; omega

/-- C2, counterexample: the claim says the first iteration with nonzero
`index_offset` serializes exactly `index_offset` rows and that every
marked iteration serializes exactly `granularity` rows.  With
`g = 8, index_offset = 3` on a 1-row block the only (unmarked) iteration
serializes 1 row, not 3; with `g = 3, index_offset = 0` on a 4-row block
the second (marked) iteration serializes 1 row, not 3.  The loop clamps
every serialization at the block's row count. -/
theorem C2_counterexample :
    writeDataIters 8 3 1 = [{ start := 0, emitsMark := false, serialized := 1 }] ∧
    writeDataIters 3 0 4 = [{ start := 0, emitsMark := true, serialized := 3 },
                           { start := 3, emitsMark := true, serialized := 1 }] ∧
    (1 : Nat) ≠ 3 := by decide

/-- C2, amended: for every per-column write of a block of `size` rows with
positive granularity `g`: if `index_offset ≠ 0` the first iteration
serializes `min index_offset size` rows (the clamp is the only change to
the claim) and emits no mark; every marked iteration serializes
`min g (size - start)` rows after emitting its mark; and marks exist
exactly at the logical row indices
`index_offset, index_offset + g, index_offset + 2g, …` below `size`. -/
theorem C2_mark_positions (g io size : Nat) (hg : 0 < g) :
    (0 < size → io ≠ 0 →
      (writeDataIters g io size).head? =
        some { start := 0, emitsMark := false, serialized := min io size }) ∧
    (∀ it ∈ writeDataIters g io size, it.emitsMark = true →
      it.serialized = min g (size - it.start)) ∧
    (∀ i, (∃ it ∈ writeDataIters g io size, it.emitsMark = true ∧ it.start = i) ↔
      (io ≤ i ∧ i < size ∧ (i - io) % g = 0)) := by
  refine ⟨?_, ?_, ?_⟩
  · intro hsize hio
    cases size with
    | zero => omega
    | succ n => simp [writeDataIters, writeDataLoopAux, hio]
  · intro it hit hmark
    by_cases hio : io = 0
    · subst hio
      exact (writeDataLoopAux_steady_all g 0 size hg size 0 (Or.inr rfl) it hit).2.1
    · cases size with
      | zero => simp [writeDataIters, writeDataLoopAux] at hit
      | succ n =>
        have hexp : writeDataIters g io (n + 1) =
            { start := 0, emitsMark := false, serialized := min io (n + 1) } ::
              writeDataLoopAux g io (n + 1) n io := by
          simp [writeDataIters, writeDataLoopAux, hio]
        rw [hexp] at hit
        rcases List.mem_cons.1 hit with rfl | hit'
        · simp at hmark
        · exact (writeDataLoopAux_steady_all g io (n + 1) hg n io (Or.inl hio) it hit').2.1
  · intro i
    by_cases hio : io = 0
    · subst hio
      have h := writeDataLoopAux_steady_mem g 0 size hg size 0 (by omega) (Or.inr rfl) i
      rw [writeDataIters, h]
      exact mark_index_iff 0 g size i
    · cases size with
      | zero =>
        constructor
        · rintro ⟨it, hit, _⟩; simp [writeDataIters, writeDataLoopAux] at hit
        · rintro ⟨_, h, _⟩; omega
      | succ n =>
        have hexp : writeDataIters g io (n + 1) =
            { start := 0, emitsMark := false, serialized := min io (n + 1) } ::
              writeDataLoopAux g io (n + 1) n io := by
          simp [writeDataIters, writeDataLoopAux, hio]
        have hsteady := writeDataLoopAux_steady_mem g io (n + 1) hg n io (by omega)
          (Or.inl hio) i
        rw [hexp]
        constructor
        · rintro ⟨it, hit, hmark, hstart⟩
          rcases List.mem_cons.1 hit with rfl | hit'
          · simp at hmark
          · exact (mark_index_iff io g (n + 1) i).1 (hsteady.mp ⟨it, hit', hmark, hstart⟩)
        · intro hrhs
          obtain ⟨it, hit, hmark, hstart⟩ := hsteady.mpr ((mark_index_iff io g (n + 1) i).2 hrhs)
          exact ⟨it, List.mem_cons_of_mem _ hit, hmark, hstart⟩

/-- Witness for C2's amended theorem at `g = 8, index_offset = 3`,
blocks of 20 rows: the unmarked first iteration and the mark at row 11. -/
theorem C2_mark_positions_witness :
    0 < 8 ∧
    ((writeDataIters 8 3 20).head? =
      some { start := 0, emitsMark := false, serialized := min 3 20 }) ∧
    ((∃ it ∈ writeDataIters 8 3 20, it.emitsMark = true ∧ it.start = 11) ↔
      (3 ≤ 11 ∧ 11 < 20 ∧ (11 - 3) % 8 = 0)) :=
  ⟨by decide, (C2_mark_positions 8 3 20 (by decide)).1 (by decide) (by decide),
    (C2_mark_positions 8 3 20 (by decide)).2.2 11⟩

/-! ### C3: empty parts are erased at commit -/

/-- Writing a 0-row block never changes `marks_count`. -/
lemma writeImpl_zero_rows_marks (s : FullState) :
    (writeImpl s 0).marks_count = s.marks_count := by
  simp [writeImpl, indexLoopAux]

/-- A sequence of 0-row blocks leaves `marks_count` unchanged. -/
lemma foldl_writeImpl_zero_marks (blocks : List Nat) (hall : ∀ r ∈ blocks, r = 0) :
    ∀ s : FullState, (blocks.foldl writeImpl s).marks_count = s.marks_count := by
  induction blocks with
  | nil => intro s; rfl
  | cons r bs ih =>
    intro s
    have hr : r = 0 := hall r (List.mem_cons_self r bs)
    subst hr
    simp only [List.foldl_cons]
    rw [ih (fun x hx => hall x (List.mem_cons_of_mem _ hx)) (writeImpl s 0),
      writeImpl_zero_rows_marks]

/-- C3: if `marks_count` is zero when `writeSuffixAndGetChecksums` runs,
the part directory is removed recursively, the returned manifest is
empty and neither `columns.txt` nor `checksums.txt` is written; in
particular, when the total rows across all written blocks is 0 the
directory no longer exists at return. -/
theorem C3_empty_part_erasure :
    (∀ s : FullState, s.marks_count = 0 →
      writeSuffixAndGetChecksums s =
        { checksums := [], dir_removed := true
          wrote_columns_txt := false, wrote_checksums_txt := false }) ∧
    (∀ (g minB maxB : Nat) (mode : MergingMode) (cols : List (ColName × CType))
        (blocks : List Nat), blocks.sum = 0 →
      (blocks.foldl writeImpl (mkMergedBlockOutputStream g minB maxB mode cols)).marks_count
          = 0 ∧
      (writeSuffixAndGetChecksums
          (blocks.foldl writeImpl (mkMergedBlockOutputStream g minB maxB mode cols))).dir_removed
          = true) := by
  have hzero : ∀ s : FullState, s.marks_count = 0 →
      writeSuffixAndGetChecksums s =
        { checksums := [], dir_removed := true
          wrote_columns_txt := false, wrote_checksums_txt := false } := by
    intro s h
    simp [writeSuffixAndGetChecksums, h]
  refine ⟨hzero, ?_⟩
  intro g minB maxB mode cols blocks hsum
  have hall : ∀ r ∈ blocks, r = 0 := List.sum_eq_zero_iff.1 hsum
  have hmarks := foldl_writeImpl_zero_marks blocks hall
    (mkMergedBlockOutputStream g minB maxB mode cols)
  refine ⟨hmarks, ?_⟩
  rw [hzero _ hmarks]

/-- Witness for C3: a fresh assembler has zero marks and is erased; two
0-row blocks keep `marks_count` at zero. -/
theorem C3_empty_part_erasure_witness :
    ((mkMergedBlockOutputStream 3 1 2 MergingMode.ordinary
        [(["n"], CType.primitive)]).marks_count = 0) ∧
    (writeSuffixAndGetChecksums
        (mkMergedBlockOutputStream 3 1 2 MergingMode.ordinary [(["n"], CType.primitive)])
      = { checksums := [], dir_removed := true
          wrote_columns_txt := false, wrote_checksums_txt := false }) ∧
    (([0, 0] : List Nat).sum = 0) ∧
    (([0, 0].foldl writeImpl
        (mkMergedBlockOutputStream 3 1 2 MergingMode.ordinary [])).marks_count = 0) :=
  ⟨by decide, C3_empty_part_erasure.1 _ (by decide), by decide,
    (C3_empty_part_erasure.2 3 1 2 MergingMode.ordinary [] [0, 0] (by decide)).1⟩

/-! ### C4: sharing of the offset-sizes streams -/

/-- `insertKey` preserves distinctness of the key set and adds exactly the
new key. -/
lemma insertKey_nodup (table : List StreamKey) (k : StreamKey) (h : table.Nodup) :
    (insertKey table k).Nodup ∧ ∀ x, x ∈ insertKey table k ↔ x ∈ table ∨ x = k := by
  by_cases hk : k ∈ table
  · refine ⟨by simpa [insertKey, hk] using h, ?_⟩
    intro x
    simp only [insertKey, if_pos hk]
    exact ⟨Or.inl, fun hx => hx.elim id (fun he => he ▸ hk)⟩
  · constructor
    · simp [insertKey, hk, List.nodup_append, h]
    · intro x
      simp [insertKey, hk]

/-- A stream table built by any sequence of constructions has pairwise
distinct keys, and holds exactly the constructed keys. -/
lemma foldl_insertKey_nodup (creations : List StreamKey) :
    ∀ acc : List StreamKey, acc.Nodup →
      (creations.foldl insertKey acc).Nodup ∧
      (∀ k, k ∈ creations.foldl insertKey acc ↔ k ∈ acc ∨ k ∈ creations) := by
  induction creations with
  | nil =>
    intro acc hacc
    exact ⟨hacc, fun k => by simp⟩
  | cons c cs ih =>
    intro acc hacc
    have hins := insertKey_nodup acc c hacc
    have hrec := ih (insertKey acc c) hins.1
    refine ⟨hrec.1, ?_⟩
    intro k
    rw [List.foldl_cons, hrec.2 k, hins.2 k]
    simp only [List.mem_cons]
    tauto

/-- `writeDataSizeEvents` either writes nothing, or writes exactly one
sizes key that was not yet in `offset_columns` and records it there. -/
lemma writeDataSizeEvents_shape (name : ColName) (t : CType) :
    ∀ (oc : List StreamKey) (level : Nat),
      writeDataSizeEvents name t oc level = ([], oc) ∨
      ∃ k, k ∉ oc ∧ writeDataSizeEvents name t oc level = ([k], k :: oc) := by
  induction t with
  | primitive => intro oc level; left; rfl
  | nullable inner ih =>
    intro oc level
    simpa [writeDataSizeEvents] using ih oc level
  | array inner ih =>
    intro oc level
    by_cases h : StreamKey.sizes (extractNestedTableName name) level ∈ oc
    · left; simp [writeDataSizeEvents, h]
    · right; exact ⟨_, h, by simp [writeDataSizeEvents, h]⟩

/-- Invariant of the per-block fold: the emitted sizes events stay
distinct and are all recorded in `offset_columns`. -/
lemma foldl_sizeFoldStep_nodup (columns : List (ColName × CType)) :
    ∀ (evs oc : List StreamKey), evs.Nodup → (∀ e ∈ evs, e ∈ oc) →
      (columns.foldl sizeFoldStep (evs, oc)).1.Nodup ∧
      (∀ e ∈ (columns.foldl sizeFoldStep (evs, oc)).1,
        e ∈ (columns.foldl sizeFoldStep (evs, oc)).2) := by
  induction columns with
  | nil => intro evs oc h1 h2; exact ⟨h1, h2⟩
  | cons c cs ih =>
    intro evs oc h1 h2
    rcases writeDataSizeEvents_shape c.1 c.2 oc 0 with hsh | ⟨k, hk, hsh⟩
    · have hstep : sizeFoldStep (evs, oc) c = (evs, oc) := by
        simp [sizeFoldStep, hsh]
      simp only [List.foldl_cons, hstep]
      exact ih evs oc h1 h2
    · have hstep : sizeFoldStep (evs, oc) c = (evs ++ [k], k :: oc) := by
        simp [sizeFoldStep, hsh]
      simp only [List.foldl_cons, hstep]
      apply ih
      · simp only [List.nodup_append, h1]
        refine ⟨trivial, by simp, ?_⟩
        intro x hx
        simp only [List.mem_singleton]
        intro he
        exact hk (he ▸ h2 x hx)
      · intro e he
        rcases List.mem_append.1 he with he' | he'
        · exact List.mem_cons_of_mem _ (h2 e he')
        · simp only [List.mem_singleton] at he'
          exact he' ▸ List.mem_cons_self _ _

/-- C4, counterexample: the claim says the offset-sizes stream is created
in the stream table only if its key is not already present.  For the two
sibling columns `t.x`, `t.y` (both `Array`), `addStream` constructs a
`ColumnStream` under the shared key `t%size0` twice — the second
construction happens although the key is already in the table (it
overwrites the mapped stream), so the creations are not guarded by
presence. -/
theorem C4_counterexample :
    columnStreamCreations
        [(["t", "x"], CType.array CType.primitive), (["t", "y"], CType.array CType.primitive)]
      = [StreamKey.sizes ["t"] 0, StreamKey.value ["t", "x"],
         StreamKey.sizes ["t"] 0, StreamKey.value ["t", "y"]] ∧
    ¬ ((columnStreamCreations
        [(["t", "x"], CType.array CType.primitive), (["t", "y"], CType.array CType.primitive)]).countP
          (fun k => decide (k = StreamKey.sizes ["t"] 0)) ≤ 1) := by decide

/-- C4, amended: each `addStream` for an `Array` column constructs the
offset-sizes stream unconditionally, later constructions overwriting
earlier ones under the same `std::map` key, so the stream table still
holds exactly one stream (one `.bin`/`.mrk` pair) per distinct key; and
when writing a block, the offset-sizes data of a key is serialized at
most once — the first sibling column rooted at the same nested root
writes it and inserts the key into `offset_columns`, subsequent siblings
skip it. -/
theorem C4_shared_sizes (creations : List StreamKey)
    (columns : List (ColName × CType)) :
    (buildTable creations).Nodup ∧
    (∀ k, k ∈ buildTable creations ↔ k ∈ creations) ∧
    (blockSizeEvents columns).Nodup := by
  have htab := foldl_insertKey_nodup creations [] List.nodup_nil
  refine ⟨htab.1, ?_, ?_⟩
  · intro k
    rw [buildTable, htab.2 k]
    simp
  · exact (foldl_sizeFoldStep_nodup columns [] [] List.nodup_nil (by simp)).1

/-! ### C5: frame flushing at mark emission -/

/-- C5: at each mark emission of a `writeData` loop, the current
compression frame is flushed before the mark is written iff the frame's
buffered byte count has reached `min_compress_block_size`
(`compressed.offset() >= min_compress_block_size`); after a flush the
mark's in-frame offset is 0, and otherwise the mark points mid-frame at
the current offset of the still-open frame, which is below the
threshold.  This holds for every serializer and compressor behaviour
(`serEff`, `flushEff`), every loop position and every stream state. -/
theorem C5_mark_frame_flush (g io size minB maxB : Nat)
    (serEff : Nat → Nat → Nat × Nat → Nat × Nat) (flushEff : Nat × Nat → Nat)
    (fuel pm : Nat) (st : Nat × Nat) :
    ∀ ev ∈ writeDataStreamAux g io size minB maxB serEff flushEff fuel pm st,
      (ev.flushed = true ↔ minB ≤ ev.pre_frame) ∧
      (ev.flushed = true → ev.frame_offset = 0) ∧
      (ev.flushed = false → ev.frame_offset = ev.pre_frame ∧ ev.pre_frame < minB) := by
  induction fuel generalizing pm st with
  | zero => intro ev hev; simp [writeDataStreamAux] at hev
  | succ fuel ih =>
    intro ev hev
    by_cases h1 : pm < size
    · by_cases h2 : pm = 0 ∧ io ≠ 0
      · simp only [writeDataStreamAux, if_pos h1, if_pos h2] at hev
        exact ih _ _ ev hev
      · simp only [writeDataStreamAux, if_pos h1, if_neg h2, List.mem_cons] at hev
        rcases hev with rfl | hev'
        · by_cases h3 : minB ≤ st.2
          · refine ⟨by simp [h3], fun _ => by simp [h3], fun hf => ?_⟩
            simp [h3] at hf
          · refine ⟨by simp [h3], fun ht => ?_, fun _ => ?_⟩
            · simp [h3] at ht
            · exact ⟨by simp [h3], by show st.2 < minB; omega⟩
        · exact ih _ _ ev hev'
    · simp [writeDataStreamAux, h1] at hev

/-- Witness for C5: with `g = 2, size = 4, min = 3`, a byte-counting
serializer and an additive flush, the first mark event has an open
0-byte frame and is not flushed. -/
theorem C5_mark_frame_flush_witness :
    ((⟨0, false, 0, 0⟩ : MarkEvent) ∈ writeDataStreamAux 2 0 4 3 100
        (fun _ cnt st => (st.1, st.2 + cnt)) (fun st => st.1 + st.2) 4 0 (0, 0)) ∧
    ((⟨0, false, 0, 0⟩ : MarkEvent).flushed = true ↔
      3 ≤ (⟨0, false, 0, 0⟩ : MarkEvent).pre_frame) :=
  ⟨by decide,
    (C5_mark_frame_flush 2 0 4 3 100 (fun _ cnt st => (st.1, st.2 + cnt))
      (fun st => st.1 + st.2) 4 0 (0, 0) ⟨0, false, 0, 0⟩ (by decide)).1⟩

/-! ### C6: bytes sent to the null-map stream -/

/-- C6: the claim says each iteration of the null-map loop serializes
exactly the rows `[cursor, cursor + limit)` of the 0/1 mask, so a block
of `n` rows sends exactly `n` mask bytes in total.  The source calls the
serializer without the `offset` / `limit` arguments, so every iteration
serializes the whole mask: with `g = 2, index_offset = 0` and a 4-row
block the code sends `2 × 4 = 8` bytes where the claim requires 4. -/
theorem C6_nullmap_whole_column :
    nullMapBytesWritten 2 0 4 = 8 ∧ nullMapBytesSpec 2 0 4 = 4 ∧ (8 : Nat) ≠ 4 := by
  decide

/-! ### C7: duplicate sort-key columns -/

/-- If the resolved sort-key names (appended to any duplicate-free
accumulator) contain a repetition, the resolution loop raises
`BAD_ARGUMENTS`. -/
lemma checkSortKeyAux_dup (block : List (ColName × CType)) :
    ∀ (ds : List SortColumnDescription) (acc : List ColName),
      acc.Nodup → ¬ (acc ++ ds.map (resolveSortName block)).Nodup →
      checkSortKeyAux block ds acc = Except.error ErrorCode.BAD_ARGUMENTS := by
  intro ds
  induction ds with
  | nil =>
    intro acc hacc hdup
    simp only [List.map_nil, List.append_nil] at hdup
    exact absurd hacc hdup
  | cons d ds ih =>
    intro acc hacc hdup
    simp only [checkSortKeyAux]
    by_cases hmem : resolveSortName block d ∈ acc
    · simp [hmem]
    · rw [if_neg hmem]
      apply ih
      · simp only [List.nodup_append, hacc]
        refine ⟨trivial, by simp, ?_⟩
        intro x hx
        simp only [List.mem_singleton]
        intro he
        exact hmem (he ▸ hx)
      · intro hcontra
        apply hdup
        rw [List.map_cons]
        rw [List.append_assoc] at hcontra
        simpa using hcontra

/-- C7: if the sort-key description resolves the same column name twice,
`writeImpl` fails with `BAD_ARGUMENTS` (the duplicate-column exception),
and no column data of the block has been serialized to any stream — the
resolution loop runs before the `writeData` loop. -/
theorem C7_duplicate_sort_key (block : List (ColName × CType))
    (sort_description : List SortColumnDescription)
    (hdup : ¬ (sort_description.map (resolveSortName block)).Nodup) :
    writeImplTrace block sort_description = ([], some ErrorCode.BAD_ARGUMENTS) := by
  rw [writeImplTrace,
    checkSortKeyAux_dup block sort_description [] List.nodup_nil (by simpa using hdup)]

/-- Witness for C7: a two-entry sort description naming column `a`
twice. -/
theorem C7_duplicate_sort_key_witness :
    (¬ (([⟨["a"], 0⟩, ⟨["a"], 1⟩] : List SortColumnDescription).map
        (resolveSortName [(["a"], CType.primitive)])).Nodup) ∧
    writeImplTrace [(["a"], CType.primitive)]
        [⟨["a"], 0⟩, ⟨["a"], 1⟩] = ([], some ErrorCode.BAD_ARGUMENTS) :=
  ⟨by decide, C7_duplicate_sort_key _ _ (by decide)⟩

/-! ### C8: writeSuffix always throws NOT_IMPLEMENTED -/

/-- C8: calling `writeSuffix` on either assembler always raises
`NOT_IMPLEMENTED` and returns the writer state unchanged (the method
bodies are single `throw` statements); `writeSuffixAndGetChecksums` is
the commit operation. -/
theorem C8_writeSuffix_not_implemented :
    ∀ (s : FullState) (t : AppendState),
      s.writeSuffix = (s, Except.error ErrorCode.NOT_IMPLEMENTED) ∧
      t.writeSuffix = (t, Except.error ErrorCode.NOT_IMPLEMENTED) :=
  fun _ _ => ⟨rfl, rfl⟩

/-! ### C9: no construction-time validation -/

/-- C9, counterexample: the claim says zero granularity or
`min_compress_block_size > max_compress_block_size` is rejected at
construction.  Constructing with granularity 0 and thresholds `10 > 5`
succeeds: the directory is created, the column stream is opened, and a
writable assembler state is returned — no configuration error exists on
this path. -/
theorem C9_counterexample :
    (mkMergedBlockOutputStream 0 10 5 MergingMode.ordinary
        [(["n"], CType.primitive)]).index_granularity = 0 ∧
    (mkMergedBlockOutputStream 0 10 5 MergingMode.ordinary
        [(["n"], CType.primitive)]).min_compress_block_size = 10 ∧
    (mkMergedBlockOutputStream 0 10 5 MergingMode.ordinary
        [(["n"], CType.primitive)]).max_compress_block_size = 5 ∧
    (mkMergedBlockOutputStream 0 10 5 MergingMode.ordinary
        [(["n"], CType.primitive)]).dir_created = true ∧
    (mkMergedBlockOutputStream 0 10 5 MergingMode.ordinary
        [(["n"], CType.primitive)]).column_streams = [StreamKey.value ["n"]] := by
  decide

/-- C9, amended: the constructors perform no configuration validation at
all — for every granularity, thresholds, mode and column list
(including zero granularity and `min > max`), construction succeeds,
creates the directory, opens one stream per required key and yields a
writable assembler with zero marks and zero carry. -/
theorem C9_no_construction_validation (g minB maxB : Nat) (mode : MergingMode)
    (cols : List (ColName × CType)) :
    (mkMergedBlockOutputStream g minB maxB mode cols).dir_created = true ∧
    (mkMergedBlockOutputStream g minB maxB mode cols).column_streams
      = buildTable (columnStreamCreations cols) ∧
    (mkMergedBlockOutputStream g minB maxB mode cols).index_granularity = g ∧
    (mkMergedBlockOutputStream g minB maxB mode cols).min_compress_block_size = minB ∧
    (mkMergedBlockOutputStream g minB maxB mode cols).max_compress_block_size = maxB ∧
    (mkMergedBlockOutputStream g minB maxB mode cols).marks_count = 0 ∧
    (mkMergedBlockOutputStream g minB maxB mode cols).index_offset = 0 :=
  ⟨rfl, rfl, rfl, rfl, rfl, rfl, rfl⟩

/-! ### C10: Unsorted parts still count marks and are persisted -/

/-- Under `Unsorted` mode `writeImpl` appends no index rows. -/
lemma writeImpl_unsorted_index_rows (s : FullState) (r : Nat)
    (hm : s.mode = MergingMode.unsorted) :
    (writeImpl s r).index_rows = s.index_rows := by
  simp [writeImpl, hm, indexLoopAux_unsorted]

/-- Under `Unsorted` mode a whole sequence of writes emits no index
rows. -/
lemma foldl_writeImpl_unsorted_index_rows (blocks : List Nat) :
    ∀ s : FullState, s.mode = MergingMode.unsorted → s.index_rows = [] →
      (blocks.foldl writeImpl s).index_rows = [] := by
  induction blocks with
  | nil => intro s _ h; exact h
  | cons r bs ih =>
    intro s hm h
    simp only [List.foldl_cons]
    refine ih (writeImpl s r) ((writeImpl_fields s r).2.1.trans hm) ?_
    rw [writeImpl_unsorted_index_rows s r hm, h]

/-- Once any rows have been written, `marks_count` is positive: the loop
invariant is `index_offset < g` together with
`marks_count = 0 → index_offset = 0`. -/
lemma foldl_writeImpl_marks_pos (g : Nat) (hg : 0 < g) (blocks : List Nat) :
    ∀ s : FullState, s.index_granularity = g → s.index_offset < g →
      (s.marks_count = 0 → s.index_offset = 0) →
      0 < s.marks_count + blocks.sum →
      0 < (blocks.foldl writeImpl s).marks_count := by
  induction blocks with
  | nil =>
    intro s _ _ _ hsum
    simpa using hsum
  | cons r bs ih =>
    intro s hsg hio hinv hsum
    have hstep1 : (writeImpl s r).index_offset = specIndexOffsetStep g s.index_offset r := by
      simp [writeImpl, specIndexOffsetStep, hsg]
    have hstep2 : (writeImpl s r).marks_count =
        s.marks_count + specMarksInBlock g s.index_offset r := by
      have hc := indexLoopAux_count g r s.mode hg r s.index_offset (by omega)
      simp [writeImpl, hsg, hc]
    simp only [List.foldl_cons]
    apply ih (writeImpl s r) ((writeImpl_fields s r).1.trans hsg)
    · rw [hstep1, specIndexOffsetStep]
      exact Nat.mod_lt _ hg
    · intro hm0
      rw [hstep2] at hm0
      have hm : s.marks_count = 0 := by omega
      have hc0 : specMarksInBlock g s.index_offset r = 0 := by omega
      have hio0 : s.index_offset = 0 := hinv hm
      have hr0 : r = 0 := by
        by_contra hr
        rw [hio0] at hc0
        simp [specMarksInBlock, Nat.pos_of_ne_zero hr] at hc0
      rw [hstep1, hio0, hr0, specIndexOffsetStep]
      simp [Nat.mod_self]
    · rw [hstep2]
      simp only [List.sum_cons] at hsum
      by_cases hm : s.marks_count = 0
      · have hio0 := hinv hm
        by_cases hr : 0 < r
        · have hpos : 0 < specMarksInBlock g s.index_offset r := by
            rw [hio0]
            simp [specMarksInBlock, hr]
          omega
        · omega
      · omega

/-- No stream ever contributes a `primary.idx` manifest entry. -/
lemma primaryIdx_not_mem_streamEntries (ks : List StreamKey) :
    ManifestEntry.primaryIdx ∉ streamEntries ks := by
  induction ks with
  | nil => simp [streamEntries]
  | cons k ks ih => simp [streamEntries] at ih ⊢; exact ih

/-- C10: with an `Unsorted` merging mode the full assembler still
increments `marks_count` once per granule boundary in every written
block — the same count as in any sorted mode — while `primary.idx` is
never opened and no index entries are emitted; consequently, once the
blocks contain at least one row in total, commit persists the part
(`columns.txt` and `checksums.txt` are written, the directory is not
removed) and the manifest has no `primary.idx` entry. -/
theorem C10_unsorted_counts_marks (g minB maxB : Nat)
    (cols : List (ColName × CType)) (blocks : List Nat)
    (hg : 0 < g) (hpos : 0 < blocks.sum) :
    0 < (blocks.foldl writeImpl
        (mkMergedBlockOutputStream g minB maxB MergingMode.unsorted cols)).marks_count ∧
    (blocks.foldl writeImpl
        (mkMergedBlockOutputStream g minB maxB MergingMode.unsorted cols)).index_rows = [] ∧
    (blocks.foldl writeImpl
        (mkMergedBlockOutputStream g minB maxB MergingMode.unsorted cols)).index_opened
      = false ∧
    (blocks.foldl writeImpl
        (mkMergedBlockOutputStream g minB maxB MergingMode.unsorted cols)).marks_count
      = (blocks.foldl writeImpl
          (mkMergedBlockOutputStream g minB maxB MergingMode.ordinary cols)).marks_count ∧
    (writeSuffixAndGetChecksums (blocks.foldl writeImpl
        (mkMergedBlockOutputStream g minB maxB MergingMode.unsorted cols))).dir_removed
      = false ∧
    (writeSuffixAndGetChecksums (blocks.foldl writeImpl
        (mkMergedBlockOutputStream g minB maxB MergingMode.unsorted cols))).wrote_columns_txt
      = true ∧
    (writeSuffixAndGetChecksums (blocks.foldl writeImpl
        (mkMergedBlockOutputStream g minB maxB MergingMode.unsorted cols))).wrote_checksums_txt
      = true ∧
    ManifestEntry.primaryIdx ∉ (writeSuffixAndGetChecksums (blocks.foldl writeImpl
        (mkMergedBlockOutputStream g minB maxB MergingMode.unsorted cols))).checksums := by
  have hmarks : 0 < (blocks.foldl writeImpl
      (mkMergedBlockOutputStream g minB maxB MergingMode.unsorted cols)).marks_count := by
    apply foldl_writeImpl_marks_pos g hg blocks _ rfl (by simpa using hg)
      (fun _ => rfl)
    exact (by omega : (0 : Nat) < 0 + blocks.sum)
  have hmode : (blocks.foldl writeImpl
      (mkMergedBlockOutputStream g minB maxB MergingMode.unsorted cols)).mode
      = MergingMode.unsorted :=
    (foldl_writeImpl_fields blocks _).2.1
  have hne : (blocks.foldl writeImpl
      (mkMergedBlockOutputStream g minB maxB MergingMode.unsorted cols)).marks_count ≠ 0 := by
    omega
  have hcommit := writeSuffixAndGetChecksums (blocks.foldl writeImpl
      (mkMergedBlockOutputStream g minB maxB MergingMode.unsorted cols))
  refine ⟨hmarks, ?_, ?_, ?_, ?_, ?_, ?_, ?_⟩
  · exact foldl_writeImpl_unsorted_index_rows blocks _ rfl rfl
  · exact (foldl_writeImpl_fields blocks _).2.2.1
  · have h1 := (foldl_writeImpl_marks g hg blocks
      (mkMergedBlockOutputStream g minB maxB MergingMode.unsorted cols) rfl).2
    have h2 := (foldl_writeImpl_marks g hg blocks
      (mkMergedBlockOutputStream g minB maxB MergingMode.ordinary cols) rfl).2
    rw [h1, h2]
    rfl
  · simp [writeSuffixAndGetChecksums, hne]
  · simp [writeSuffixAndGetChecksums, hne]
  · simp [writeSuffixAndGetChecksums, hne]
  · simp only [writeSuffixAndGetChecksums, if_neg hne, hmode]
    simp only [ne_eq, not_true_eq_false, if_false, List.nil_append]
    intro hc
    rcases List.mem_append.1 hc with h | h
    · exact primaryIdx_not_mem_streamEntries _ h
    · exact primaryIdx_not_mem_streamEntries _ h

/-- Witness for C10 at `g = 3` with one 2-row block. -/
theorem C10_unsorted_counts_marks_witness :
    0 < 3 ∧ 0 < ([2] : List Nat).sum ∧
    0 < ([2].foldl writeImpl
        (mkMergedBlockOutputStream 3 1 2 MergingMode.unsorted [])).marks_count :=
  ⟨by decide, by decide,
    (C10_unsorted_counts_marks 3 1 2 [] [2] (by decide) (by decide)).1⟩
